import Mathlib

/-!
Verification development for the terragrunt variable-binding engine
(`config` package: the convergence evaluator of `globals.go`, the
graph evaluator of `globals_test.go`, and the include-chain resolver of
`config_parser.go`).  The Go code is shallowly embedded: maps become
association lists, HCL expressions become a small expression type that
reports its free-variable references and evaluates against a context,
and panics become an explicit outcome of evaluation.
-/

namespace Terragrunt

/-! ## Value maps

`cty.Value` maps are modelled as association lists of strings; values in
every claim are strings, which is all the tests exercise for lookups. -/

abbrev ValMap := List (String × String)

def getVal : ValMap → String → Option String
  | [], _ => none
  | (k, v) :: rest, key => if k = key then some v else getVal rest key

def setVal : ValMap → String → String → ValMap
  | [], key, value => [(key, value)]
  | (k, v) :: rest, key, value =>
    if k = key then (k, value) :: rest else (k, v) :: setVal rest key value

/-! ## Expressions

External collaborator contract (spec section 6): an expression node reports
its free-variable references and evaluates itself against a context; a
malformed typed operation may raise a low-level fault (a Go panic), which is
modelled as an explicit `EvalRes.panicV` outcome. -/

inductive RefKind
  | rlocal
  | rglobal
  | rinclude
  | rother
deriving DecidableEq, Repr

inductive Expr
  /-- A literal value. -/
  | lit (s : String)
  /-- A bare reference such as `global.x` or `local.x`. -/
  | ref (k : RefKind) (name : String)
  /-- String-template concatenation, e.g. `"a/b-dollar-interpolation"`. -/
  | cat (a b : Expr)
  /-- An expression whose evaluation returns error diagnostics. -/
  | fails (msg : String)
  /-- An expression whose evaluation raises a low-level fault (Go panic). -/
  | panicE (payload : String)
deriving DecidableEq, Repr

/-- The free-variable references of an expression (`Expr.Variables()` /
`freeVariableReferences()` in the collaborator contract). -/
def varsOf : Expr → List (RefKind × String)
  | .lit _ => []
  | .ref k n => [(k, n)]
  | .cat a b => varsOf a ++ varsOf b
  | .fails _ => []
  | .panicE _ => []

/-- An evaluation context: the current file's local map and the shared
global map (spec section 3, EvaluationContext). -/
structure Ctx where
  localVals : ValMap
  globalVals : ValMap
deriving DecidableEq, Repr

inductive EvalRes
  | okV (v : String)
  | diag (msg : String)
  | panicV (payload : String)
deriving DecidableEq, Repr

/-- `Expr.Value(ctx)`: evaluate an expression against a context.  A
reference to a name absent from the context yields error diagnostics, as
HCL does for a missing object attribute. -/
def evalE : Expr → Ctx → EvalRes
  | .lit s, _ => .okV s
  | .ref .rglobal n, ctx =>
    match getVal ctx.globalVals n with
    | some v => .okV v
    | none => .diag ("unknown global " ++ n)
  | .ref .rlocal n, ctx =>
    match getVal ctx.localVals n with
    | some v => .okV v
    | none => .diag ("unknown local " ++ n)
  | .ref _ n, _ => .diag ("unsupported reference " ++ n)
  | .cat a b, ctx =>
    match evalE a ctx with
    | .okV va =>
      match evalE b ctx with
      | .okV vb => .okV (va ++ vb)
      | r => r
    | r => r
  | .fails m, _ => .diag m
  | .panicE p, _ => .panicV p

/-! ## Convergence Evaluator (`globals.go`, `src/unnamed/part_000`) -/

/-- `Global` from globals.go: a single global name binding holding the
unevaluated expression. -/
structure Global where
  name : String
  expr : Expr
deriving DecidableEq, Repr

/-- Modelled from the spec: `canEvaluate` is called by
`attemptEvaluateGlobals` but its definition is not under src/.  Spec
section 4.4: a binding is ready when every `global.name` it references
already has a value in the accumulated map. -/
def canEvaluate (e : Expr) (evaluatedGlobals : ValMap) : Bool :=
  (varsOf e).all fun r =>
    match r with
    | (.rglobal, n) => (getVal evaluatedGlobals n).isSome
    | _ => true

inductive SweepErr
  /-- Error diagnostics from an expression evaluation, returned with stack
  trace by `attemptEvaluateGlobals`. -/
  | diag (msg : String)
  /-- `PanicWhileParsingConfig`: a recovered panic carrying the recovered
  value and the config file name. -/
  | panicRecovered (payload : String) (configFile : String)
deriving DecidableEq, Repr

/-- The four named results of `attemptEvaluateGlobals`. -/
structure AttemptResult where
  uneval : List Global
  newEval : ValMap
  evaluated : Bool
  err : Option SweepErr
deriving DecidableEq, Repr

/-- The loop body of `attemptEvaluateGlobals` (globals.go lines 170-183).
`ctxAcc` is the `evaluatedGlobals` map the evaluation context was built
from; `uneval`, `newEval` and `evaluated` are the named return values
accumulated so far.  A panic during `global.Expr.Value` is recovered by the
deferred function, which only sets `err`, so the named returns keep the
values they had when the panic fired. -/
def attemptGo (configFile : String) (ctxAcc : ValMap) :
    List Global → List Global → ValMap → Bool → AttemptResult
  | [], uneval, newEval, evaluated => ⟨uneval, newEval, evaluated, none⟩
  | g :: rest, uneval, newEval, evaluated =>
    if canEvaluate g.expr ctxAcc then
      match evalE g.expr ⟨[], ctxAcc⟩ with
      | .okV v => attemptGo configFile ctxAcc rest uneval (setVal newEval g.name v) true
      | .diag m => ⟨[], ctxAcc, false, some (.diag m)⟩
      | .panicV p => ⟨uneval, newEval, evaluated, some (.panicRecovered p configFile)⟩
    else
      attemptGo configFile ctxAcc rest (uneval ++ [g]) newEval evaluated

/-- `attemptEvaluateGlobals`: one sweep.  `newEvaluatedGlobals` starts as a
copy of `evaluatedGlobals`; the evaluation context is built once from
`evaluatedGlobals`. -/
def attemptEvaluateGlobals (configFile : String) (globals : List Global)
    (evaluatedGlobals : ValMap) : AttemptResult :=
  attemptGo configFile evaluatedGlobals globals [] evaluatedGlobals false

inductive GlobalsErr
  | sweep (e : SweepErr)
  /-- `CouldNotEvaluateAllGlobalsError`. -/
  | couldNotEvaluateAllGlobals
  /-- `MaxIterError`. -/
  | maxIterExceeded
deriving DecidableEq, Repr

/-- The sweep loop of `evaluateGlobalsBlock` (globals.go lines 88-118).
`remaining` counts the sweeps the `iterations > MaxIter` guard still
allows; the loop runs while globals remain and the previous sweep made
progress, and afterwards remaining globals are a
`CouldNotEvaluateAllGlobalsError`. -/
def evalLoop (configFile : String) (remaining : Nat) (globals : List Global)
    (acc : ValMap) (evaluated : Bool) : Except GlobalsErr ValMap :=
  match globals, evaluated, remaining with
  | [], _, _ => .ok acc
  | _ :: _, false, _ => .error .couldNotEvaluateAllGlobals
  | _ :: _, true, 0 => .error .maxIterExceeded
  | g :: rest, true, r + 1 =>
    let res := attemptEvaluateGlobals configFile (g :: rest) acc
    match res.err with
    | some e => .error (.sweep e)
    | none => evalLoop configFile r res.uneval res.newEval res.evaluated

/-- `evaluateGlobalsBlock`, starting from the decoded name/expression
pairs.  Modelled from the spec: the constant `MaxIter` (the hard sweep
ceiling) is not under src/ and is taken as the parameter `maxIter`; the
guard `iterations > MaxIter` permits `maxIter + 1` sweeps. -/
def evaluateGlobalsBlock (configFile : String) (maxIter : Nat)
    (globals : List Global) : Except GlobalsErr ValMap :=
  evalLoop configFile (maxIter + 1) globals [] true

/-! ## Graph Evaluator (`src/config/globals_test.go`)

The `dag.AcyclicGraph` of hashicorp/terraform identifies vertices by
value; vertices are modelled as a closed tagged variant with decidable
equality, and the vertex and edge sets as insertion-ordered lists with
set semantics (Go map iteration order is not deterministic; this model
fixes insertion order). -/

inductive Ns
  | nsLocal
  | nsGlobal
deriving DecidableEq, Repr

/-- `variableVertex`: the `Evaluator` pointer field is modelled by the
owning evaluator's numeric id (`none` models the nil pointer of a
provisional vertex). -/
structure VarVertex where
  evaluator : Option Nat
  type : Ns
  name : String
  expr : Option Expr
  evaluated : Bool
deriving DecidableEq, Repr

inductive GVertex
  /-- `rootVertex`. -/
  | root
  /-- A `variableVertex` value. -/
  | varV (v : VarVertex)
  /-- The nil `*variableVertex` stored in `configEvaluator.includeVertex`
  (never assigned in globals_test.go). -/
  | inclNil
deriving DecidableEq, Repr

structure Graph where
  verts : List GVertex
  edges : List (GVertex × GVertex)
deriving DecidableEq, Repr

def emptyGraph : Graph := ⟨[], []⟩

/-- `Graph.Add`: set insertion of a vertex. -/
def addV (g : Graph) (v : GVertex) : Graph :=
  if v ∈ g.verts then g else { g with verts := g.verts ++ [v] }

/-- `Graph.Connect(basicEdge{S,T})`: adds both endpoints and the edge
(edge identity is the endpoint pair, matching `basicEdge.Hashcode`). -/
def connect (g : Graph) (s t : GVertex) : Graph :=
  let g1 := addV (addV g s) t
  if (s, t) ∈ g1.edges then g1 else { g1 with edges := g1.edges ++ [(s, t)] }

/-- `DownEdges(v)`: targets of edges out of `v`. -/
def downEdges (g : Graph) (v : GVertex) : List GVertex :=
  (g.edges.filter fun e => e.1 == v).map Prod.snd

/-- Sources of edges into `v` (`UpEdges`). -/
def upSources (g : Graph) (v : GVertex) : List GVertex :=
  (g.edges.filter fun e => e.2 == v).map Prod.fst

def removeEdge (g : Graph) (s t : GVertex) : Graph :=
  { g with edges := g.edges.filter fun e => !(e.1 == s && e.2 == t) }

/-- Depth-first collection of the vertices reachable from a frontier. -/
def reachGo (g : Graph) : Nat → List GVertex → List GVertex → List GVertex
  | 0, _, visited => visited
  | _ + 1, [], visited => visited
  | fuel + 1, v :: stack, visited =>
    if v ∈ visited then reachGo g fuel stack visited
    else reachGo g fuel (downEdges g v ++ stack) (visited ++ [v])

def reachableFrom (g : Graph) (vs : List GVertex) : List GVertex :=
  reachGo g (g.verts.length + g.edges.length + 2) vs []

/-- A vertex lying on a directed cycle (what `Cycles` plus the self-edge
check of `AcyclicGraph.Validate` detect). -/
def hasCycle (g : Graph) : Bool :=
  g.verts.any fun v => (reachableFrom g (downEdges g v)).contains v

inductive GraphErr
  /-- `AcyclicGraph.Root()`: "multiple roots". -/
  | multipleRoots
  /-- `AcyclicGraph.Root()`: "no roots found". -/
  | noRoot
  /-- A cycle reported by `Validate`. -/
  | cycle
deriving DecidableEq, Repr

/-- `AcyclicGraph.Validate`: first requires a unique vertex without
incoming edges, then rejects cycles. -/
def validate (g : Graph) : Except GraphErr Unit :=
  let rs := g.verts.filter fun v => (upSources g v).isEmpty
  if rs.length > 1 then .error .multipleRoots
  else if rs.length = 0 then .error .noRoot
  else if hasCycle g then .error .cycle
  else .ok ()

/-- The inner depth-first walk of `TransitiveReduction` for a fixed
vertex `u`: at each vertex `v` reachable from `u`'s targets, every edge
from `u` to a shared target of `u` and `v` is removed. -/
def trWalk (u : GVertex) : Nat → List GVertex → List GVertex → Graph → Graph
  | 0, _, _, g => g
  | _ + 1, [], _, g => g
  | fuel + 1, v :: stack, visited, g =>
    if v ∈ visited then trWalk u fuel stack visited g
    else
      let shared := (downEdges g u).filter fun w => (downEdges g v).contains w
      let g2 := shared.foldl (fun acc w => removeEdge acc u w) g
      trWalk u fuel (downEdges g2 v ++ stack) (visited ++ [v]) g2

/-- `AcyclicGraph.TransitiveReduction`. -/
def transitiveReduction (g : Graph) : Graph :=
  g.verts.foldl
    (fun acc u =>
      trWalk u (acc.verts.length + acc.edges.length + 2) (downEdges acc u) [] acc)
    g

/-! ### Vertex registration and edge construction -/

abbrev VertMap := List (String × VarVertex)

def getVert : VertMap → String → Option VarVertex
  | [], _ => none
  | (k, v) :: rest, key => if k = key then some v else getVert rest key

def setVert : VertMap → String → VarVertex → VertMap
  | [], key, value => [(key, value)]
  | (k, v) :: rest, key, value =>
    if k = key then (k, value) :: rest else (k, v) :: setVert rest key value

/-- `evaluatorGlobals`: the graph and the chain-wide global vertex map,
shared (through pointers and map headers in Go) by every
`configEvaluator` of the run.  The `values` map lives in `RunState`. -/
structure EvalGlobals where
  graph : Graph
  vertices : VertMap
deriving DecidableEq, Repr

/-- One attribute step of `configEvaluator.addVertices` for the `local`
namespace: always a fresh vertex, registered in the file's
`localVertices` map. -/
def addVerticesLocals (evalId : Nat) (attrs : List (String × Expr))
    (gg : EvalGlobals) (lv : VertMap) : EvalGlobals × VertMap :=
  attrs.foldl
    (fun acc attr =>
      let vv : VarVertex := ⟨some evalId, .nsLocal, attr.1, some attr.2, false⟩
      ({ acc.1 with graph := addV acc.1.graph (.varV vv) }, setVert acc.2 attr.1 vv))
    (gg, lv)

/-- `configEvaluator.addVertices` for the `global` namespace
(globals_test.go lines 466-503): if a vertex for the name exists with a
nil expression, its fields are filled in on a local copy; otherwise a
fresh vertex is built.  Either way the resulting value is `graph.Add`ed
and registered in the shared vertex map by the consumer closure. -/
def addVerticesGlobals (evalId : Nat) (attrs : List (String × Expr))
    (gg : EvalGlobals) : EvalGlobals :=
  attrs.foldl
    (fun acc attr =>
      let vv : VarVertex :=
        match getVert acc.vertices attr.1 with
        | some gv =>
          if gv.expr = none then
            { gv with evaluator := some evalId, expr := some attr.2 }
          else
            ⟨some evalId, .nsGlobal, attr.1, some attr.2, false⟩
        | none => ⟨some evalId, .nsGlobal, attr.1, some attr.2, false⟩
      { graph := addV acc.graph (.varV vv), vertices := setVert acc.vertices attr.1 vv })
    gg

/-- The reference loop of `configEvaluator.addEdges` (globals_test.go
lines 531-575).  An undefined global reference builds a provisional
vertex (nil evaluator, nil expression) that is connected but never
registered in the vertex map; an undefined local reference and an
unsupported root name return nil early (the `TODO: error` branches). -/
def edgeGo (lv : VertMap) (target : VarVertex) :
    List (RefKind × String) → EvalGlobals → EvalGlobals
  | [], gg => gg
  | (k, n) :: rest, gg =>
    match k with
    | .rglobal =>
      let source := (getVert gg.vertices n).getD ⟨none, .nsGlobal, n, none, false⟩
      edgeGo lv target rest
        { gg with graph := connect gg.graph (.varV source) (.varV target) }
    | .rlocal =>
      match getVert lv n with
      | some s =>
        edgeGo lv target rest
          { gg with graph := connect gg.graph (.varV s) (.varV target) }
      | none => gg
    | .rinclude =>
      edgeGo lv target rest
        { gg with graph := connect gg.graph .inclNil (.varV target) }
    | .rother => gg

/-- `configEvaluator.addEdges`: a target with a nil expression gets no
edges; an expression without references is connected from the root. -/
def addEdges (lv : VertMap) (gg : EvalGlobals) (target : VarVertex) : EvalGlobals :=
  match target.expr with
  | none => gg
  | some e =>
    let vs := varsOf e
    if vs.isEmpty then { gg with graph := connect gg.graph .root (.varV target) }
    else edgeGo lv target vs gg

/-- `configEvaluator.addAllEdges` over a vertex map. -/
def addAllEdges (lv : VertMap) (items : VertMap) (gg : EvalGlobals) : EvalGlobals :=
  items.foldl (fun acc it => addEdges lv acc it.2) gg

/-- The vertex/edge construction part of `configEvaluator.decodeConfig`
(steps before `Validate`): local vertices, global vertices, edges of this
file's local vertices, then edges of every registered global vertex
(`eval.includeVertex` is nil and skipped). -/
def decodeBuild (evalId : Nat) (localsAttrs globalsAttrs : Option (List (String × Expr)))
    (gg0 : EvalGlobals) : EvalGlobals × VertMap :=
  let step1 :=
    match localsAttrs with
    | some attrs => addVerticesLocals evalId attrs gg0 []
    | none => (gg0, [])
  let gg1 := step1.1
  let lv := step1.2
  let gg2 :=
    match globalsAttrs with
    | some attrs => addVerticesGlobals evalId attrs gg1
    | none => gg1
  let gg3 := addAllEdges lv lv gg2
  let gg4 := addAllEdges lv gg3.vertices gg3
  (gg4, lv)

/-- `configEvaluator.decodeConfig`: build, `Validate`, then
`TransitiveReduction`. -/
def decodeConfig (evalId : Nat) (localsAttrs globalsAttrs : Option (List (String × Expr)))
    (gg0 : EvalGlobals) : Except GraphErr (EvalGlobals × VertMap) :=
  let built := decodeBuild evalId localsAttrs globalsAttrs gg0
  match validate built.1.graph with
  | .error e => .error e
  | .ok _ => .ok ({ built.1 with graph := transitiveReduction built.1.graph }, built.2)

/-! ### BFS evaluation pass -/

/-- The run's mutable value state: the shared `globals.values` map, each
evaluator's `localValues` map keyed by evaluator id, and a trace
recording each invocation of `Expr.Value` by the binding's name
(instrumentation; it does not influence control flow). -/
structure RunState where
  globalValues : ValMap
  localsById : List (Nat × ValMap)
  trace : List String
deriving DecidableEq, Repr

def getLocals : List (Nat × ValMap) → Nat → ValMap
  | [], _ => []
  | (k, v) :: rest, key => if k = key then v else getLocals rest key

def setLocals : List (Nat × ValMap) → Nat → String → String → List (Nat × ValMap)
  | [], key, name, value => [(key, [(name, value)])]
  | (k, v) :: rest, key, name, value =>
    if k = key then (k, setVal v name value) :: rest
    else (k, v) :: setLocals rest key name value

/-- `configEvaluator.evaluateVariable` (globals_test.go lines 404-444).
The `diags` argument is a Go slice passed by value; the error branch
computes `diags.Extend(currentDiags)` and discards the result, so the
caller's diagnostics never change.  `vertex.Evaluated = true` mutates a
local copy of the vertex, so nothing stored in the graph or the vertex
maps records it.  A nil `Evaluator` or nil `Expr` would panic in Go and
is modelled as a fatal error. -/
def evaluateVariable (vv : VarVertex) (evaluateGlobals : Bool) (st : RunState) :
    Except String (Bool × RunState) :=
  if vv.type = Ns.nsGlobal ∧ evaluateGlobals = false then .ok (false, st)
  else if vv.evaluated then .ok (true, st)
  else
    match vv.evaluator with
    | none => .error "nil evaluator dereference"
    | some evalId =>
      let ctx : Ctx := ⟨getLocals st.localsById evalId, st.globalValues⟩
      match vv.expr with
      | none => .error "nil expression dereference"
      | some e =>
        let st1 := { st with trace := st.trace ++ [vv.name] }
        match evalE e ctx with
        | .panicV p => .error p
        | .diag d =>
          let _discarded := [d]
          .ok (false, st1)
        | .okV v =>
          match vv.type with
          | .nsGlobal => .ok (true, { st1 with globalValues := setVal st1.globalValues vv.name v })
          | .nsLocal => .ok (true, { st1 with localsById := setLocals st1.localsById evalId vv.name v })

/-- The walk callback of `evaluatorGlobals.evaluateVariables`: the root
continues, a value that is not a `variableVertex` (the nil include
vertex) stops its branch, and a binding vertex is evaluated. -/
def evalCallback (evaluateGlobals : Bool) (v : GVertex) (st : RunState) :
    Except String (Bool × RunState) :=
  match v with
  | .root => .ok (true, st)
  | .inclNil => .ok (false, st)
  | .varV vv => evaluateVariable vv evaluateGlobals st

/-- `walkBreadthFirst`: queue-based walk with a visited set; a vertex's
down-edges are enqueued only when its callback continues.  The fuel is an
upper bound on queue operations, never reached (each edge enqueues its
target at most once). -/
def walkBFS (g : Graph) (evaluateGlobals : Bool) :
    Nat → List GVertex → List GVertex → RunState → Except String RunState
  | 0, _, _, st => .ok st
  | _ + 1, [], _, st => .ok st
  | fuel + 1, v :: queue, visited, st =>
    if v ∈ visited then walkBFS g evaluateGlobals fuel queue visited st
    else
      match evalCallback evaluateGlobals v st with
      | .error p => .error p
      | .ok (cont, st1) =>
        let queue1 := if cont then queue ++ downEdges g v else queue
        walkBFS g evaluateGlobals fuel queue1 (visited ++ [v]) st1

/-- `evaluatorGlobals.evaluateVariables` (globals_test.go lines 618-640):
walks from the root and returns its local `diags` when they contain
errors, nil otherwise. -/
def evaluateVariables (gg : EvalGlobals) (evaluateGlobals : Bool) (st : RunState) :
    Except String (Option (List String) × RunState) :=
  let diags : List String := []
  match walkBFS gg.graph evaluateGlobals (gg.graph.edges.length + 2) [.root] [] st with
  | .error p => .error p
  | .ok st1 => .ok (if diags.isEmpty then none else some diags, st1)

/-- The diagnostics handed back by `evaluateVariables` (`nil` when the
walk finished without collecting any). -/
def returnedDiags (r : Except String (Option (List String) × RunState)) :
    Option (List String) :=
  match r with
  | .ok (d, _) => d
  | .error _ => none

inductive ParseErr
  | decodeErr (e : GraphErr)
  | diagsErr (ds : List String)
  | panicked (p : String)
deriving DecidableEq, Repr

/-- The result a caller of `ParseConfigVariables` sees for the child
file: the chain-wide global value map, the child's local value map, and
the instrumentation trace. -/
structure ParseOut where
  globalVals : ValMap
  childLocals : ValMap
  trace : List String
deriving DecidableEq, Repr

/-- `ParseConfigVariables` (globals_test.go lines 286-347): child decode,
locals-only pass, optional parent decode, full pass, results. -/
def ParseConfigVariables (childLocals childGlobals : Option (List (String × Expr)))
    (parent : Option (Option (List (String × Expr)) × Option (List (String × Expr)))) :
    Except ParseErr ParseOut :=
  let gg0 : EvalGlobals := ⟨addV emptyGraph .root, []⟩
  match decodeConfig 0 childLocals childGlobals gg0 with
  | .error e => .error (.decodeErr e)
  | .ok (gg1, _) =>
    match evaluateVariables gg1 false ⟨[], [], []⟩ with
    | .error p => .error (.panicked p)
    | .ok (some ds, _) => .error (.diagsErr ds)
    | .ok (none, st1) =>
      let afterParent : Except ParseErr EvalGlobals :=
        match parent with
        | none => .ok gg1
        | some (pl, pg) =>
          match decodeConfig 1 pl pg gg1 with
          | .error e => .error (.decodeErr e)
          | .ok (gg2, _) => .ok gg2
      match afterParent with
      | .error e => .error e
      | .ok gg2 =>
        match evaluateVariables gg2 true st1 with
        | .error p => .error (.panicked p)
        | .ok (some ds, _) => .error (.diagsErr ds)
        | .ok (none, st2) => .ok ⟨st2.globalValues, getLocals st2.localsById 0, st2.trace⟩

/-! ## Include Chain Resolver (`ConfigParser`, `src/unnamed/part_000`)

`filepath` and `util.JoinPath` are external collaborators; paths are
modelled as strings where an absolute path starts with a slash, `dirOf`
drops the last component (`filepath.Dir`) and `joinPath` joins with a
slash separator. -/

def isAbs (p : String) : Bool :=
  match p.toList with
  | c :: _ => c == '/'
  | [] => false

def dirOf (p : String) : String :=
  match p.toList.reverse.dropWhile (fun c => c != '/') with
  | [] => "."
  | [_] => "/"
  | _ :: restRev => String.mk restRev.reverse

def joinPath (a b : String) : String := a ++ "/" ++ b

/-- The fields of `ConfigParser` that include resolution reads: the
file's own name and `Options.TerragruntConfigPath`. -/
structure ConfigParserSt where
  filename : String
  configPath : String
deriving DecidableEq, Repr

inductive IncludeErr
  /-- `IncludedConfigMissingPath`, carrying `Options.TerragruntConfigPath`. -/
  | missingPath (configPath : String)
deriving DecidableEq, Repr

/-- `ConfigParser.GetIncludeFilename`: an empty path fails; a relative
path is joined onto the directory of `Options.TerragruntConfigPath`; an
absolute path passes through. -/
def GetIncludeFilename (cp : ConfigParserSt) (includePath : String) :
    Except IncludeErr String :=
  if includePath = "" then .error (.missingPath cp.configPath)
  else if isAbs includePath then .ok includePath
  else .ok (joinPath (dirOf cp.configPath) includePath)

/-- `ConfigParser.CreateParent` (part_000 lines 473-499): resolves the
include filename and builds the parent parser whose
`Options.TerragruntConfigPath` is set to the parent's own filename. -/
def CreateParent (cp : ConfigParserSt) (includePath : String) :
    Except IncludeErr ConfigParserSt :=
  match GetIncludeFilename cp includePath with
  | .error e => .error e
  | .ok f => .ok ⟨f, f⟩

/-- Whether an evaluation outcome is a value. -/
def EvalRes.isOkV : EvalRes → Bool
  | .okV _ => true
  | _ => false

/-! ## Concrete claim inputs -/

/-- A single file, no include, no local references: five globals, all
defined, acyclic.  `v` references `a` and `w`; `a` sits at breadth-first
distance 1 from the root while `w` sits at distance 3 (root to `b` to `c`
to `w`), so `v` is enqueued during the distance-1 wave and dequeued at
distance 2 — strictly before `w` is evaluated at distance 3.  A FIFO
queue dequeues in nondecreasing distance order, so this holds for every
map-iteration order, not just the insertion order the model fixes. -/
def c2Attrs : List (String × Expr) :=
  [ ("a", .lit "av")
  , ("b", .lit "bv")
  , ("c", .cat (.ref .rglobal "b") (.lit "/c"))
  , ("w", .cat (.ref .rglobal "c") (.lit "/w"))
  , ("v", .cat (.ref .rglobal "a") (.ref .rglobal "w")) ]

def c2Globals : List Global := c2Attrs.map fun a => ⟨a.1, a.2⟩

/-- All ways of inserting an element into a list. -/
def insertsOf (x : α) : List α → List (List α)
  | [] => [[x]]
  | y :: ys => (x :: y :: ys) :: (insertsOf x ys).map (fun zs => y :: zs)

/-- All permutations of a list, used to range over Go's nondeterministic
map-iteration orders. -/
def permsOf : List α → List (List α)
  | [] => [[]]
  | x :: xs => (permsOf xs).flatMap (insertsOf x)

def c3gg0 : EvalGlobals := ⟨addV emptyGraph .root, []⟩

/-- The child file's only global: `a = global.b`, where `b` is defined
only in the parent. -/
def c3ChildAttrs : List (String × Expr) := [("a", .ref .rglobal "b")]

/-- The parent file defines `b`. -/
def c3ParentAttrs : List (String × Expr) := [("b", .lit "x")]

def c3Child : EvalGlobals × VertMap := decodeBuild 0 none (some c3ChildAttrs) c3gg0

def c3Parent : EvalGlobals × VertMap := decodeBuild 1 none (some c3ParentAttrs) c3Child.1

def c3aVert : VarVertex := ⟨some 0, .nsGlobal, "a", some (.ref .rglobal "b"), false⟩

def c3bProv : VarVertex := ⟨none, .nsGlobal, "b", none, false⟩

def c4Vertex : VarVertex := ⟨some 0, .nsGlobal, "a", some (.ref .rlocal "nope"), false⟩

def c4gg : EvalGlobals := ⟨addV (addV emptyGraph .root) (.varV c4Vertex), [("a", c4Vertex)]⟩

/-! ## Helper lemmas -/

theorem getVal_setVal_same (m : ValMap) (k v : String) :
    getVal (setVal m k v) k = some v := by
  induction m with
  | nil => simp [setVal, getVal]
  | cons hd tl ih =>
    by_cases h : hd.1 = k
    · simp [setVal, getVal, h]
    · simp [setVal, getVal, h, ih]

theorem getVal_setVal_other (m : ValMap) (k v k' : String) (h : k ≠ k') :
    getVal (setVal m k v) k' = getVal m k' := by
  induction m with
  | nil => simp [setVal, getVal, h]
  | cons hd tl ih =>
    by_cases h1 : hd.1 = k
    · simp [setVal, getVal, h1, h]
    · simp only [setVal, h1, if_neg h1, getVal]
      by_cases h2 : hd.1 = k'
      · simp [h2]
      · simp [h2, ih]

theorem isOkV_exists {r : EvalRes} (h : r.isOkV = true) : ∃ v, r = .okV v := by
  cases r with
  | okV v => exact ⟨v, rfl⟩
  | diag m => simp [EvalRes.isOkV] at h
  | panicV p => simp [EvalRes.isOkV] at h

theorem attemptGo_nil (f : String) (acc : ValMap) (u : List Global) (m : ValMap) (e : Bool) :
    attemptGo f acc [] u m e = ⟨u, m, e, none⟩ := rfl

theorem attemptGo_cons_ok (f : String) (acc : ValMap) (g : Global) (rest u : List Global)
    (m : ValMap) (e : Bool) (v : String) (hc : canEvaluate g.expr acc = true)
    (hv : evalE g.expr ⟨[], acc⟩ = .okV v) :
    attemptGo f acc (g :: rest) u m e
      = attemptGo f acc rest u (setVal m g.name v) true := by
  simp [attemptGo, hc, hv]

theorem attemptGo_cons_diag (f : String) (acc : ValMap) (g : Global) (rest u : List Global)
    (m : ValMap) (e : Bool) (msg : String) (hc : canEvaluate g.expr acc = true)
    (hv : evalE g.expr ⟨[], acc⟩ = .diag msg) :
    attemptGo f acc (g :: rest) u m e = ⟨[], acc, false, some (.diag msg)⟩ := by
  simp [attemptGo, hc, hv]

theorem attemptGo_cons_panic (f : String) (acc : ValMap) (g : Global) (rest u : List Global)
    (m : ValMap) (e : Bool) (p : String) (hc : canEvaluate g.expr acc = true)
    (hv : evalE g.expr ⟨[], acc⟩ = .panicV p) :
    attemptGo f acc (g :: rest) u m e = ⟨u, m, e, some (.panicRecovered p f)⟩ := by
  simp [attemptGo, hc, hv]

theorem attemptGo_cons_skip (f : String) (acc : ValMap) (g : Global) (rest u : List Global)
    (m : ValMap) (e : Bool) (hc : canEvaluate g.expr acc = false) :
    attemptGo f acc (g :: rest) u m e = attemptGo f acc rest (u ++ [g]) m e := by
  simp [attemptGo, hc]

/-- A sweep without faulting ready bindings reports no error. -/
theorem attemptGo_err (f : String) (acc : ValMap) (l u : List Global) (m : ValMap) (e : Bool)
    (h : ∀ g ∈ l, canEvaluate g.expr acc = true → (evalE g.expr ⟨[], acc⟩).isOkV = true) :
    (attemptGo f acc l u m e).err = none := by
  induction l generalizing u m e with
  | nil => simp [attemptGo]
  | cons g rest ih =>
    by_cases hc : canEvaluate g.expr acc = true
    · obtain ⟨v, hv⟩ := isOkV_exists (h g (by simp) hc)
      rw [attemptGo_cons_ok f acc g rest u m e v hc hv]
      exact ih _ _ _ (fun g1 hg1 => h g1 (by simp [hg1]))
    · rw [attemptGo_cons_skip f acc g rest u m e (by simpa using hc)]
      exact ih _ _ _ (fun g1 hg1 => h g1 (by simp [hg1]))

/-- A sweep without faulting ready bindings leaves exactly the not-ready
bindings pending, in order, after the already accumulated ones. -/
theorem attemptGo_uneval (f : String) (acc : ValMap) (l u : List Global) (m : ValMap) (e : Bool)
    (h : ∀ g ∈ l, canEvaluate g.expr acc = true → (evalE g.expr ⟨[], acc⟩).isOkV = true) :
    (attemptGo f acc l u m e).uneval
      = u ++ l.filter (fun g => !(canEvaluate g.expr acc)) := by
  induction l generalizing u m e with
  | nil => simp [attemptGo]
  | cons g rest ih =>
    by_cases hc : canEvaluate g.expr acc = true
    · obtain ⟨v, hv⟩ := isOkV_exists (h g (by simp) hc)
      rw [attemptGo_cons_ok f acc g rest u m e v hc hv]
      rw [ih _ _ _ (fun g1 hg1 => h g1 (by simp [hg1]))]
      simp [List.filter_cons, hc]
    · have hc2 : canEvaluate g.expr acc = false := by
        simpa using hc
      rw [attemptGo_cons_skip f acc g rest u m e hc2]
      rw [ih _ _ _ (fun g1 hg1 => h g1 (by simp [hg1]))]
      simp [List.filter_cons, hc2]

/-- A sweep without faulting ready bindings reports progress exactly when
some binding was ready. -/
theorem attemptGo_evaluated (f : String) (acc : ValMap) (l u : List Global) (m : ValMap)
    (e : Bool)
    (h : ∀ g ∈ l, canEvaluate g.expr acc = true → (evalE g.expr ⟨[], acc⟩).isOkV = true) :
    (attemptGo f acc l u m e).evaluated
      = (e || l.any (fun g => canEvaluate g.expr acc)) := by
  induction l generalizing u m e with
  | nil => simp [attemptGo]
  | cons g rest ih =>
    by_cases hc : canEvaluate g.expr acc = true
    · obtain ⟨v, hv⟩ := isOkV_exists (h g (by simp) hc)
      rw [attemptGo_cons_ok f acc g rest u m e v hc hv]
      rw [ih _ _ _ (fun g1 hg1 => h g1 (by simp [hg1]))]
      simp [List.any_cons, hc]
    · have hc2 : canEvaluate g.expr acc = false := by
        simpa using hc
      rw [attemptGo_cons_skip f acc g rest u m e hc2]
      rw [ih _ _ _ (fun g1 hg1 => h g1 (by simp [hg1]))]
      simp [List.any_cons, hc2]

/-- Without faulting ready bindings, a key that is no pending binding's
name keeps its value from the working copy. -/
theorem attemptGo_getVal_preserved (f : String) (acc : ValMap) (l u : List Global) (m : ValMap)
    (e : Bool) (k : String)
    (h : ∀ g ∈ l, canEvaluate g.expr acc = true → (evalE g.expr ⟨[], acc⟩).isOkV = true)
    (hk : ∀ g ∈ l, g.name ≠ k) :
    getVal (attemptGo f acc l u m e).newEval k = getVal m k := by
  induction l generalizing u m e with
  | nil => simp [attemptGo]
  | cons g rest ih =>
    by_cases hc : canEvaluate g.expr acc = true
    · obtain ⟨v, hv⟩ := isOkV_exists (h g (by simp) hc)
      rw [attemptGo_cons_ok f acc g rest u m e v hc hv]
      rw [ih _ _ _ (fun g1 hg1 => h g1 (by simp [hg1]))
          (fun g1 hg1 => hk g1 (by simp [hg1]))]
      exact getVal_setVal_other m g.name v k (hk g (by simp))
    · rw [attemptGo_cons_skip f acc g rest u m e (by simpa using hc)]
      exact ih _ _ _ (fun g1 hg1 => h g1 (by simp [hg1]))
        (fun g1 hg1 => hk g1 (by simp [hg1]))

/-- Without faulting ready bindings, a ready binding's value lands in the
new accumulated map under its name. -/
theorem attemptGo_getVal_value (f : String) (acc : ValMap) (l u : List Global) (m : ValMap)
    (e : Bool) (g : Global) (v : String)
    (h : ∀ g1 ∈ l, canEvaluate g1.expr acc = true → (evalE g1.expr ⟨[], acc⟩).isOkV = true)
    (hnodup : (l.map Global.name).Nodup)
    (hmem : g ∈ l) (hc : canEvaluate g.expr acc = true)
    (hv : evalE g.expr ⟨[], acc⟩ = .okV v) :
    getVal (attemptGo f acc l u m e).newEval g.name = some v := by
  induction l generalizing u m e with
  | nil => exact absurd hmem (List.not_mem_nil g)
  | cons g1 rest ih =>
    rw [List.map_cons, List.nodup_cons] at hnodup
    obtain ⟨hnotin, hnodup2⟩ := hnodup
    rcases List.mem_cons.mp hmem with heq | hmem1
    · subst heq
      rw [attemptGo_cons_ok f acc g rest u m e v hc hv]
      rw [attemptGo_getVal_preserved f acc rest u (setVal m g.name v) true g.name
          (fun g2 hg2 => h g2 (by simp [hg2]))
          (fun g2 hg2 hcontra =>
            hnotin (hcontra ▸ List.mem_map_of_mem Global.name hg2))]
      exact getVal_setVal_same m g.name v
    · by_cases hc1 : canEvaluate g1.expr acc = true
      · obtain ⟨v1, hv1⟩ := isOkV_exists (h g1 (by simp) hc1)
        rw [attemptGo_cons_ok f acc g1 rest u m e v1 hc1 hv1]
        exact ih _ _ _ (fun g2 hg2 => h g2 (by simp [hg2])) hnodup2 hmem1
      · rw [attemptGo_cons_skip f acc g1 rest u m e (by simpa using hc1)]
        exact ih _ _ _ (fun g2 hg2 => h g2 (by simp [hg2])) hnodup2 hmem1

/-- The pending list a sweep returns never exceeds what it was given. -/
theorem attemptGo_uneval_len_le (f : String) (acc : ValMap) (l : List Global) :
    ∀ (u : List Global) (m : ValMap) (e : Bool),
    (attemptGo f acc l u m e).uneval.length ≤ u.length + l.length := by
  induction l with
  | nil => intro u m e; simp [attemptGo]
  | cons g rest ih =>
    intro u m e
    by_cases hc : canEvaluate g.expr acc = true
    · cases hv : evalE g.expr ⟨[], acc⟩ with
      | okV v =>
        rw [attemptGo_cons_ok f acc g rest u m e v hc hv]
        calc (attemptGo f acc rest u (setVal m g.name v) true).uneval.length
            ≤ u.length + rest.length := ih u (setVal m g.name v) true
          _ ≤ u.length + (g :: rest).length := by simp
      | diag msg =>
        rw [attemptGo_cons_diag f acc g rest u m e msg hc hv]
        simp
      | panicV p =>
        rw [attemptGo_cons_panic f acc g rest u m e p hc hv]
        simp
    · rw [attemptGo_cons_skip f acc g rest u m e (by simpa using hc)]
      calc (attemptGo f acc rest (u ++ [g]) m e).uneval.length
          ≤ (u ++ [g]).length + rest.length := ih (u ++ [g]) m e
        _ = u.length + (g :: rest).length := by simp; omega

/-- A sweep that starts with no progress recorded and ends reporting
progress strictly shrank the pending list. -/
theorem attemptGo_progress (f : String) (acc : ValMap) (l : List Global) :
    ∀ (u : List Global) (m : ValMap),
    (attemptGo f acc l u m false).err = none →
    (attemptGo f acc l u m false).evaluated = true →
    (attemptGo f acc l u m false).uneval.length < u.length + l.length := by
  induction l with
  | nil =>
    intro u m _ hev
    rw [attemptGo_nil] at hev
    exact absurd hev (by simp)
  | cons g rest ih =>
    intro u m herr hev
    by_cases hc : canEvaluate g.expr acc = true
    · cases hv : evalE g.expr ⟨[], acc⟩ with
      | okV v =>
        rw [attemptGo_cons_ok f acc g rest u m false v hc hv] at herr hev ⊢
        calc (attemptGo f acc rest u (setVal m g.name v) true).uneval.length
            ≤ u.length + rest.length := attemptGo_uneval_len_le f acc rest u _ true
          _ < u.length + (g :: rest).length := by simp
      | diag msg =>
        rw [attemptGo_cons_diag f acc g rest u m false msg hc hv] at herr
        exact absurd herr (by simp)
      | panicV p =>
        rw [attemptGo_cons_panic f acc g rest u m false p hc hv] at herr
        exact absurd herr (by simp)
    · rw [attemptGo_cons_skip f acc g rest u m false (by simpa using hc)] at herr hev ⊢
      calc (attemptGo f acc rest (u ++ [g]) m false).uneval.length
          < (u ++ [g]).length + rest.length := ih (u ++ [g]) m herr hev
        _ = u.length + (g :: rest).length := by simp; omega

/-- When a sweep reports evaluation diagnostics, it hands back exactly
the map it was given. -/
theorem attemptGo_diag_newEval (f : String) (acc : ValMap) (l : List Global) :
    ∀ (u : List Global) (m : ValMap) (e : Bool) (msg : String),
    (attemptGo f acc l u m e).err = some (.diag msg) →
    (attemptGo f acc l u m e).newEval = acc := by
  induction l with
  | nil =>
    intro u m e msg herr
    rw [attemptGo_nil] at herr
    exact absurd herr (by simp)
  | cons g rest ih =>
    intro u m e msg herr
    by_cases hc : canEvaluate g.expr acc = true
    · cases hv : evalE g.expr ⟨[], acc⟩ with
      | okV v =>
        rw [attemptGo_cons_ok f acc g rest u m e v hc hv] at herr ⊢
        exact ih u (setVal m g.name v) true msg herr
      | diag msg1 =>
        rw [attemptGo_cons_diag f acc g rest u m e msg1 hc hv]
      | panicV p =>
        rw [attemptGo_cons_panic f acc g rest u m e p hc hv] at herr
        exact absurd herr (by simp)
    · rw [attemptGo_cons_skip f acc g rest u m e (by simpa using hc)] at herr ⊢
      exact ih (u ++ [g]) m e msg herr

/-- On every exit of a sweep, a key that is no pending binding's name has
the same value in the returned map as in the input map (writes only go to
the fresh copy, keyed by binding names). -/
theorem attemptGo_getVal_inv (f : String) (acc : ValMap) (l : List Global) (k : String) :
    ∀ (u : List Global) (m : ValMap) (e : Bool),
    (∀ g ∈ l, g.name ≠ k) →
    getVal m k = getVal acc k →
    getVal (attemptGo f acc l u m e).newEval k = getVal acc k := by
  induction l with
  | nil =>
    intro u m e _ hm
    rw [attemptGo_nil]
    exact hm
  | cons g rest ih =>
    intro u m e hk hm
    by_cases hc : canEvaluate g.expr acc = true
    · cases hv : evalE g.expr ⟨[], acc⟩ with
      | okV v =>
        rw [attemptGo_cons_ok f acc g rest u m e v hc hv]
        refine ih u (setVal m g.name v) true (fun g1 hg1 => hk g1 (by simp [hg1])) ?_
        rw [getVal_setVal_other m g.name v k (hk g (by simp))]
        exact hm
      | diag msg =>
        rw [attemptGo_cons_diag f acc g rest u m e msg hc hv]
      | panicV p =>
        rw [attemptGo_cons_panic f acc g rest u m e p hc hv]
        exact hm
    · rw [attemptGo_cons_skip f acc g rest u m e (by simpa using hc)]
      exact ih (u ++ [g]) m e (fun g1 hg1 => hk g1 (by simp [hg1])) hm

/-- When the first faulting ready binding panics, the recovered panic is
the sweep's reported error, carrying the payload and the file name. -/
theorem attemptGo_panic (f : String) (acc : ValMap) (g : Global) (post : List Global)
    (p : String) (hc : canEvaluate g.expr acc = true)
    (hp : evalE g.expr ⟨[], acc⟩ = .panicV p) :
    ∀ (pre : List Global) (u : List Global) (m : ValMap) (e : Bool),
    (∀ g1 ∈ pre, canEvaluate g1.expr acc = true → (evalE g1.expr ⟨[], acc⟩).isOkV = true) →
    (attemptGo f acc (pre ++ g :: post) u m e).err = some (.panicRecovered p f) := by
  intro pre
  induction pre with
  | nil =>
    intro u m e _
    rw [List.nil_append, attemptGo_cons_panic f acc g post u m e p hc hp]
  | cons g1 rest ih =>
    intro u m e hpre
    rw [List.cons_append]
    by_cases hc1 : canEvaluate g1.expr acc = true
    · obtain ⟨v1, hv1⟩ := isOkV_exists (hpre g1 (by simp) hc1)
      rw [attemptGo_cons_ok f acc g1 (rest ++ g :: post) u m e v1 hc1 hv1]
      exact ih u (setVal m g1.name v1) true (fun g2 hg2 => hpre g2 (by simp [hg2]))
    · rw [attemptGo_cons_skip f acc g1 (rest ++ g :: post) u m e (by simpa using hc1)]
      exact ih (u ++ [g1]) m e (fun g2 hg2 => hpre g2 (by simp [hg2]))

theorem evalLoop_nil (f : String) (rem : Nat) (acc : ValMap) (ev : Bool) :
    evalLoop f rem [] acc ev = .ok acc := by
  cases rem <;> cases ev <;> rfl

theorem evalLoop_stuck (f : String) (rem : Nat) (g : Global) (rest : List Global)
    (acc : ValMap) :
    evalLoop f rem (g :: rest) acc false = .error .couldNotEvaluateAllGlobals := by
  cases rem <;> rfl

theorem evalLoop_zero (f : String) (g : Global) (rest : List Global) (acc : ValMap) :
    evalLoop f 0 (g :: rest) acc true = .error .maxIterExceeded := rfl

theorem evalLoop_succ (f : String) (r : Nat) (g : Global) (rest : List Global)
    (acc : ValMap) :
    evalLoop f (r + 1) (g :: rest) acc true
      = (match (attemptEvaluateGlobals f (g :: rest) acc).err with
         | some e => .error (.sweep e)
         | none =>
           evalLoop f r (attemptEvaluateGlobals f (g :: rest) acc).uneval
             (attemptEvaluateGlobals f (g :: rest) acc).newEval
             (attemptEvaluateGlobals f (g :: rest) acc).evaluated) := rfl

/-- The loop never reports `MaxIterError` while the fuel exceeds the
pending count: each continued iteration strictly shrinks the pending
list. -/
theorem evalLoop_no_maxIter (f : String) :
    ∀ (rem : Nat) (l : List Global) (acc : ValMap) (ev : Bool),
    l.length + 1 ≤ rem →
    evalLoop f rem l acc ev ≠ .error .maxIterExceeded := by
  intro rem
  induction rem with
  | zero => intro l acc ev h; omega
  | succ r ih =>
    intro l acc ev h
    cases l with
    | nil => rw [evalLoop_nil]; intro hcontra; exact Except.noConfusion hcontra
    | cons g rest =>
      cases ev with
      | false =>
        rw [evalLoop_stuck]
        intro hcontra
        exact absurd (Except.error.inj hcontra) (by intro hg; exact GlobalsErr.noConfusion hg)
      | true =>
        rw [evalLoop_succ]
        cases herr : (attemptEvaluateGlobals f (g :: rest) acc).err with
        | some e =>
          intro hcontra
          exact absurd (Except.error.inj hcontra) (by intro hg; exact GlobalsErr.noConfusion hg)
        | none =>
          cases hev : (attemptEvaluateGlobals f (g :: rest) acc).evaluated with
          | false =>
            cases hu : (attemptEvaluateGlobals f (g :: rest) acc).uneval with
            | nil =>
              rw [evalLoop_nil]
              intro hcontra; exact Except.noConfusion hcontra
            | cons g1 rest1 =>
              rw [evalLoop_stuck]
              intro hcontra
              exact absurd (Except.error.inj hcontra)
                (by intro hg; exact GlobalsErr.noConfusion hg)
          | true =>
            have hlt : (attemptEvaluateGlobals f (g :: rest) acc).uneval.length
                < (g :: rest).length := by
              have := attemptGo_progress f acc (g :: rest) [] acc herr hev
              simpa using this
            exact ih _ _ _ (by omega)

/-- Beyond the pending count, the fuel does not influence the loop's
result: the loop finishes (or fails for another reason) within
`length + 1` sweeps. -/
theorem evalLoop_fuel_irrelevant (f : String) :
    ∀ (n : Nat) (l : List Global), l.length ≤ n →
    ∀ (r1 r2 : Nat) (acc : ValMap) (ev : Bool),
    l.length + 1 ≤ r1 → l.length + 1 ≤ r2 →
    evalLoop f r1 l acc ev = evalLoop f r2 l acc ev := by
  intro n
  induction n with
  | zero =>
    intro l hl r1 r2 acc ev _ _
    have : l = [] := List.length_eq_zero.mp (by omega)
    subst this
    rw [evalLoop_nil, evalLoop_nil]
  | succ n ih =>
    intro l hl r1 r2 acc ev h1 h2
    cases l with
    | nil => rw [evalLoop_nil, evalLoop_nil]
    | cons g rest =>
      cases ev with
      | false => rw [evalLoop_stuck, evalLoop_stuck]
      | true =>
        obtain ⟨a, ha⟩ : ∃ a, r1 = a + 1 := ⟨r1 - 1, by omega⟩
        obtain ⟨b, hb⟩ : ∃ b, r2 = b + 1 := ⟨r2 - 1, by omega⟩
        subst ha; subst hb
        rw [evalLoop_succ, evalLoop_succ]
        cases herr : (attemptEvaluateGlobals f (g :: rest) acc).err with
        | some e => rfl
        | none =>
          simp only
          cases hev : (attemptEvaluateGlobals f (g :: rest) acc).evaluated with
          | false =>
            cases hu : (attemptEvaluateGlobals f (g :: rest) acc).uneval with
            | nil => rw [evalLoop_nil, evalLoop_nil]
            | cons g1 rest1 => rw [evalLoop_stuck, evalLoop_stuck]
          | true =>
            have hlt : (attemptEvaluateGlobals f (g :: rest) acc).uneval.length
                < (g :: rest).length := by
              have := attemptGo_progress f acc (g :: rest) [] acc herr hev
              simpa using this
            exact ih _ (by simp at hl hlt ⊢; omega) a b _ _ (by omega) (by omega)

/-! ## Claim theorems -/

/-- C1: each sweep of the convergence evaluator evaluates exactly the set
of pending bindings all of whose `global.name` references already have
values in the accumulated map (all of them, not just one), merges their
values into a new accumulated map and removes them from pending; and a
sweep that evaluates zero bindings while pending bindings remain makes
evaluation fail with `CouldNotEvaluateAllGlobalsError`. -/
theorem C1_sweep_evaluates_exactly_ready (f : String) (globals : List Global) (acc : ValMap)
    (hok : ∀ g ∈ globals, canEvaluate g.expr acc = true →
      (evalE g.expr ⟨[], acc⟩).isOkV = true)
    (hnodup : (globals.map Global.name).Nodup) :
    (attemptEvaluateGlobals f globals acc).err = none
    ∧ (attemptEvaluateGlobals f globals acc).uneval
        = globals.filter (fun g => !(canEvaluate g.expr acc))
    ∧ (attemptEvaluateGlobals f globals acc).evaluated
        = globals.any (fun g => canEvaluate g.expr acc)
    ∧ (∀ g ∈ globals, canEvaluate g.expr acc = true →
        ∀ v, evalE g.expr ⟨[], acc⟩ = .okV v →
          getVal (attemptEvaluateGlobals f globals acc).newEval g.name = some v)
    ∧ (∀ k, (∀ g ∈ globals, g.name ≠ k) →
        getVal (attemptEvaluateGlobals f globals acc).newEval k = getVal acc k)
    ∧ (globals ≠ [] → (attemptEvaluateGlobals f globals acc).evaluated = false →
        ∀ rem, evalLoop f (rem + 1) globals acc true
          = .error .couldNotEvaluateAllGlobals) := by
  have hdef : ∀ (l : List Global) (a : ValMap),
      attemptEvaluateGlobals f l a = attemptGo f a l [] a false := fun _ _ => rfl
  refine ⟨attemptGo_err f acc globals [] acc false hok, ?_, ?_, ?_, ?_, ?_⟩
  · rw [hdef, attemptGo_uneval f acc globals [] acc false hok]
    simp
  · rw [hdef, attemptGo_evaluated f acc globals [] acc false hok]
    simp
  · intro g hg hc v hv
    exact attemptGo_getVal_value f acc globals [] acc false g v hok hnodup hg hc hv
  · intro k hk
    exact attemptGo_getVal_preserved f acc globals [] acc false k hok hk
  · intro hne hev rem
    cases globals with
    | nil => exact absurd rfl hne
    | cons g rest =>
      rw [evalLoop_succ]
      have herr : (attemptEvaluateGlobals f (g :: rest) acc).err = none := by
        rw [hdef]
        exact attemptGo_err f acc (g :: rest) [] acc false hok
      rw [herr]
      simp only
      have huneval : (attemptEvaluateGlobals f (g :: rest) acc).uneval = g :: rest := by
        rw [hdef, attemptGo_uneval f acc (g :: rest) [] acc false hok, List.nil_append]
        have hany : (g :: rest).any (fun g1 => canEvaluate g1.expr acc) = false := by
          have hb := attemptGo_evaluated f acc (g :: rest) [] acc false hok
          rw [hdef] at hev
          rw [hev] at hb
          simpa using hb.symm
        refine List.filter_eq_self.mpr ?_
        intro g1 hg1
        have : canEvaluate g1.expr acc = false := by
          have hall := List.any_eq_false.mp hany
          simpa using hall g1 hg1
        simp [this]
      rw [hev, huneval, evalLoop_stuck]

theorem C1_witness :
    (attemptEvaluateGlobals "terragrunt.hcl"
      [⟨"a", .lit "1"⟩, ⟨"b", .ref .rglobal "d"⟩] [("c", "3")]).err = none :=
  (C1_sweep_evaluates_exactly_ready "terragrunt.hcl"
    [⟨"a", .lit "1"⟩, ⟨"b", .ref .rglobal "d"⟩] [("c", "3")]
    (by decide) (by decide)).1

/-- C8: with `n` pending bindings the loop needs at most `n + 1` sweeps —
a ceiling of at least the binding count is never reached (no
`MaxIterError`), and raising the ceiling further cannot change the
result. -/
theorem C8_sweep_ceiling_safety (f : String) (maxIter : Nat) (globals : List Global)
    (h : globals.length ≤ maxIter) :
    evaluateGlobalsBlock f maxIter globals ≠ .error .maxIterExceeded
    ∧ (∀ maxIter2, globals.length ≤ maxIter2 →
        evaluateGlobalsBlock f maxIter globals = evaluateGlobalsBlock f maxIter2 globals) := by
  constructor
  · exact evalLoop_no_maxIter f (maxIter + 1) globals [] true (by omega)
  · intro maxIter2 h2
    exact evalLoop_fuel_irrelevant f globals.length globals (le_refl _)
      (maxIter + 1) (maxIter2 + 1) [] true (by omega) (by omega)

theorem C8_witness :
    evaluateGlobalsBlock "terragrunt.hcl" 2
      [⟨"a", .lit "a"⟩, ⟨"b", .cat (.ref .rglobal "a") (.lit "/b")⟩]
      ≠ .error .maxIterExceeded :=
  (C8_sweep_ceiling_safety "terragrunt.hcl" 2
    [⟨"a", .lit "a"⟩, ⟨"b", .cat (.ref .rglobal "a") (.lit "/b")⟩] (by decide)).1

/-- C9: a low-level fault (panic) raised while evaluating a ready
binding's expression is caught at the sweep boundary of
`attemptEvaluateGlobals` and reported as a `PanicWhileParsingConfig`
error carrying the recovered payload and the source file name, instead of
propagating to the caller. -/
theorem C9_panic_recovered_at_sweep_boundary (f : String) (acc : ValMap)
    (pre post : List Global) (g : Global) (p : String)
    (hpre : ∀ g1 ∈ pre, canEvaluate g1.expr acc = true →
      (evalE g1.expr ⟨[], acc⟩).isOkV = true)
    (hready : canEvaluate g.expr acc = true)
    (hpanic : evalE g.expr ⟨[], acc⟩ = .panicV p) :
    (attemptEvaluateGlobals f (pre ++ g :: post) acc).err
      = some (.panicRecovered p f) :=
  attemptGo_panic f acc g post p hready hpanic pre [] acc false hpre

theorem C9_witness :
    (attemptEvaluateGlobals "terragrunt.hcl"
      [⟨"a", .lit "v"⟩, ⟨"b", .panicE "boom"⟩] []).err
      = some (.panicRecovered "boom" "terragrunt.hcl") :=
  C9_panic_recovered_at_sweep_boundary "terragrunt.hcl" [] [⟨"a", .lit "v"⟩] []
    ⟨"b", .panicE "boom"⟩ "boom" (by decide) (by decide) rfl

/-- C10 counterexample: a sweep in which one binding evaluates and a
later one panics returns an error together with a map that differs from
the input accumulated map — the claim that every erroring sweep returns
the accumulated map unchanged is false. -/
theorem C10_error_returns_merged_map_counterexample :
    (attemptEvaluateGlobals "terragrunt.hcl"
      [⟨"a", .lit "v"⟩, ⟨"b", .panicE "boom"⟩] []).err
        = some (.panicRecovered "boom" "terragrunt.hcl")
    ∧ (attemptEvaluateGlobals "terragrunt.hcl"
        [⟨"a", .lit "v"⟩, ⟨"b", .panicE "boom"⟩] []).newEval = [("a", "v")]
    ∧ ([("a", "v")] : ValMap) ≠ ([] : ValMap) :=
  ⟨rfl, rfl, by decide⟩

/-- C10 amended: when a sweep fails with evaluation diagnostics the input
accumulated map is returned unchanged; when a recovered panic fails the
sweep, the returned map is the fresh working copy, which can already
contain values merged before the panic; in every case writes go only to
the fresh copy, so any key that is no pending binding's name keeps its
value from the input map. -/
theorem C10_failed_sweep_map_behavior (f : String) (globals : List Global) (acc : ValMap) :
    (∀ msg, (attemptEvaluateGlobals f globals acc).err = some (.diag msg) →
      (attemptEvaluateGlobals f globals acc).newEval = acc)
    ∧ (∀ k, (∀ g ∈ globals, g.name ≠ k) →
        getVal (attemptEvaluateGlobals f globals acc).newEval k = getVal acc k) := by
  constructor
  · intro msg herr
    exact attemptGo_diag_newEval f acc globals [] acc false msg herr
  · intro k hk
    exact attemptGo_getVal_inv f acc globals k [] acc false hk rfl

theorem C10_witness :
    getVal (attemptEvaluateGlobals "terragrunt.hcl"
      [⟨"a", .lit "v"⟩] [("k", "w")]).newEval "k" = getVal [("k", "w")] "k" :=
  (C10_failed_sweep_map_behavior "terragrunt.hcl" [⟨"a", .lit "v"⟩] [("k", "w")]).2
    "k" (by decide)

set_option maxRecDepth 100000 in
/-- C2 (code bug): on an input with no include chain and no local
references, the convergence evaluator resolves all five globals while the
graph evaluator returns successfully with `v` missing from the final
global mapping — the BFS walk dequeues `v` (distance 2, via `a`) before
its dependency `w` (distance 3) has been evaluated, the evaluation
failure is silently swallowed, and `v` is never revisited.  The third
conjunct quantifies over every permutation of the attribute list, the
model's image of Go's nondeterministic map-iteration order: under every
order the graph evaluator succeeds without `v` while the convergence
evaluator computes `v`, so the two evaluators disagree on this input no
matter how the maps iterate. -/
theorem C2_convergence_graph_divergence :
    evaluateGlobalsBlock "terragrunt.hcl" 25 c2Globals
      = .ok [("a", "av"), ("b", "bv"), ("c", "bv/c"), ("w", "bv/c/w"), ("v", "avbv/c/w")]
    ∧ ParseConfigVariables none (some c2Attrs) none
      = .ok ⟨[("a", "av"), ("b", "bv"), ("c", "bv/c"), ("w", "bv/c/w")], [],
             ["a", "b", "v", "c", "w"]⟩
    ∧ (∀ p ∈ permsOf c2Attrs,
        (ParseConfigVariables none (some p) none).toOption.map
            (fun r => getVal r.globalVals "v") = some none
        ∧ (evaluateGlobalsBlock "terragrunt.hcl" 25 (p.map fun a => ⟨a.1, a.2⟩)).toOption.bind
            (fun m => getVal m "v") = some "avbv/c/w") :=
  ⟨rfl, rfl, by decide⟩

/-- C3 (code bug): the provisional vertex that `addEdges` creates for a
global referenced before its definition is never registered in the shared
vertex map, so when the parent file supplies the real expression,
`addVertices` builds a second vertex for the same name instead of filling
the provisional one: after both files are processed the graph holds two
global vertices named `b`, the dependency edge is still wired to the
never-filled provisional vertex, and the child's own `decodeConfig` even
aborts at `Validate` with a multiple-roots error because the provisional
vertex has no incoming edge. -/
theorem C3_provisional_vertex_duplicated :
    (c3Parent.1.graph.verts.filter fun v =>
      match v with
      | .varV vv => vv.type == Ns.nsGlobal && vv.name == "b"
      | _ => false).length = 2
    ∧ (GVertex.varV c3bProv, GVertex.varV c3aVert) ∈ c3Parent.1.graph.edges
    ∧ getVert c3Parent.1.vertices "b"
        = some ⟨some 1, .nsGlobal, "b", some (.lit "x"), false⟩
    ∧ decodeConfig 0 none (some c3ChildAttrs) c3gg0 = .error .multipleRoots :=
  ⟨rfl, by decide, rfl, rfl⟩

/-- C4 (code bug): edge construction for a binding referencing
`local.nope`, a local that is not among the current file's local
vertices, returns successfully with the state unchanged — no edge is
wired and no `UndefinedLocalReferenceError` exists anywhere in the code
(the branch is a `TODO: error` that returns nil). -/
theorem C4_undefined_local_silent_success :
    addEdges [] c4gg c4Vertex = c4gg
    ∧ c4gg.graph.edges = [] :=
  ⟨rfl, rfl⟩

/-- C5 (code bug): `evaluateVariables` always hands back nil diagnostics
— its local `diags` value is never extended, because `evaluateVariable`
receives the slice by value and discards the result of
`diags.Extend(currentDiags)`; concretely, a globals block whose only
binding's expression produces error diagnostics still makes
`ParseConfigVariables` succeed, with the binding silently missing from
the result. -/
theorem C5_diagnostics_never_returned (gg : EvalGlobals) (b : Bool) (st : RunState) :
    returnedDiags (evaluateVariables gg b st) = none
    ∧ ParseConfigVariables none (some [("bad", .fails "boom")]) none
      = .ok ⟨[], [], ["bad"]⟩ := by
  constructor
  · unfold evaluateVariables returnedDiags
    cases hw : walkBFS gg.graph b (gg.graph.edges.length + 2) [.root] [] st <;> simp
  · rfl

/-- C6 (code bug): `vertex.Evaluated = true` is written to a by-value
copy, so the stored vertex never records evaluation; when the second full
pass re-walks the graph, the already-evaluated local `l` is evaluated
again — its expression is invoked twice (trace `l, l`), although its
stored value is unchanged.  The claim that re-running evaluation on an
already-evaluated binding does not re-invoke its expression is false on
the code. -/
theorem C6_reevaluation_reinvokes_expression :
    ParseConfigVariables (some [("l", .lit "x")]) none none
      = .ok ⟨[], [("l", "x")], ["l", "l"]⟩
    ∧ ((ParseConfigVariables (some [("l", .lit "x")]) none none).toOption.map
        fun r => r.trace.count "l") = some 2 :=
  ⟨rfl, rfl⟩

/-- C7: `CreateParent` resolves a relative include path against the
directory of the including file (its `TerragruntConfigPath`, equal to its
own filename), passes an absolute include path through unchanged, and
re-establishes the invariant `configPath = filename` for the parent, so
the same resolution rule applies at every depth of the chain. -/
theorem C7_include_path_resolution (cp : ConfigParserSt) (p : String)
    (parent : ConfigParserSt)
    (hinv : cp.configPath = cp.filename)
    (hok : CreateParent cp p = .ok parent) :
    (isAbs p = true → parent.filename = p)
    ∧ (isAbs p = false → parent.filename = joinPath (dirOf cp.filename) p)
    ∧ parent.configPath = parent.filename := by
  unfold CreateParent GetIncludeFilename at hok
  by_cases hp : p = ""
  · rw [if_pos hp] at hok
    exact Except.noConfusion hok
  · rw [if_neg hp] at hok
    by_cases habs : isAbs p = true
    · rw [if_pos habs] at hok
      have hpar : parent = ⟨p, p⟩ := (Except.ok.inj hok).symm
      subst hpar
      exact ⟨fun _ => rfl, fun hfalse => absurd habs (by simp [hfalse]), rfl⟩
    · rw [if_neg habs] at hok
      have hpar : parent = ⟨joinPath (dirOf cp.configPath) p,
          joinPath (dirOf cp.configPath) p⟩ := (Except.ok.inj hok).symm
      subst hpar
      rw [hinv]
      exact ⟨fun htrue => absurd htrue habs, fun _ => rfl, rfl⟩

theorem C7_witness :
    (isAbs "../p.hcl" = true →
      (⟨"/r/a/../p.hcl", "/r/a/../p.hcl"⟩ : ConfigParserSt).filename = "../p.hcl")
    ∧ (isAbs "../p.hcl" = false →
      (⟨"/r/a/../p.hcl", "/r/a/../p.hcl"⟩ : ConfigParserSt).filename
        = joinPath (dirOf (⟨"/r/a/tg.hcl", "/r/a/tg.hcl"⟩ : ConfigParserSt).filename)
            "../p.hcl")
    ∧ (⟨"/r/a/../p.hcl", "/r/a/../p.hcl"⟩ : ConfigParserSt).configPath
        = (⟨"/r/a/../p.hcl", "/r/a/../p.hcl"⟩ : ConfigParserSt).filename :=
  C7_include_path_resolution ⟨"/r/a/tg.hcl", "/r/a/tg.hcl"⟩ "../p.hcl"
    ⟨"/r/a/../p.hcl", "/r/a/../p.hcl"⟩ rfl (by rfl)

end Terragrunt
